import Mathlib

/-!
Verification of `addInterfaceIndexes`
(src/packages/@css-blocks/core/src/BlockParser/features/add-interface-indexes.ts).

The TypeScript function walks the rules of a parsed definition file, reads each
`block-interface-index` declaration, parses its value with `parseInt(val, 10)`,
records validation errors on the block, and assigns the parsed index to the
first attribute style node (else the first class style node) of each resolved
selector target.  A final audit pass reports every style node whose index was
never reset.

Shallow embedding notes:
* `postcss` rules and declarations are modelled as plain structures carrying
  the fields the function reads (`decl.prop`, `decl.value`, a source-location
  token used by `sourceRange`).  Definition files are flat, so the rule walk
  is a fold over a list of rules.
* `Block`, `Style` (its `index` setter and `wasIndexReset` flag), `stripQuotes`
  and `getStyleTargets` are repository code that is not under `src/`; they are
  modelled from the spec, as recorded in their doc comments.  Style nodes are
  identified positionally: the lists inside a resolved selector target hold
  positions into the block's style-node list.
* JavaScript `parseInt(s, 10)` is modelled exactly for integer values
  (`Option Int`, `none` standing for `NaN`); double rounding beyond 2^53 is
  not modelled.  `Array.prototype.includes` uses SameValueZero, under which
  `NaN` matches `NaN`; `none = none` holding in `Option Int` matches that.
* The JavaScript `throw` is modelled with `Except`: the error value carries
  the block state at the throw point, because the real block is mutated in
  place and keeps all mutations made before the throw.
-/

/-- A style node of the block, as the assigner sees it: a source
representation (`asSource()`), a mutable interface index and the
`wasIndexReset` flag.  Modelled from the spec: the `Style` class is not under
`src/`; the spec describes "a human-readable source representation, a mutable
integer `index` ... and a boolean flag indicating whether its index has been
explicitly (re-)set during this pass".  `index = none` stands for JavaScript
`NaN` (or an unset index). -/
structure StyleNode where
  src : String
  index : Option Int
  wasIndexReset : Bool
deriving DecidableEq, Repr

/-- Where an error is attributed: a source range inside the file (the
`sourceRange(configuration, root, file, decl)` result, abstracted to the file
name and the declaration's location token) or the file as a whole
(`{ filename: file }`). -/
inductive ErrLoc where
  | range (file : String) (loc : Nat)
  | fileOnly (file : String)
deriving DecidableEq, Repr

/-- A `CssBlockError`: message plus attribution. -/
structure CssBlockError where
  message : String
  loc : ErrLoc
deriving DecidableEq, Repr

/-- The block: its style nodes and its accumulated error list.  Modelled from
the spec: the `Block` class is not under `src/`; the spec describes it as
owning a set of style nodes and accumulating a list of errors.  The node list
is the enumeration `block.all(true)` returns (all nodes, implicit ones
included). -/
structure Block where
  styleNodes : List StyleNode
  errors : List CssBlockError
deriving DecidableEq, Repr

/-- `block.addError(e)`: append a structured error record.  Modelled from the
spec: "an error-accumulation sink accepting structured error records". -/
def Block.addError (b : Block) (e : CssBlockError) : Block :=
  { b with errors := b.errors ++ [e] }

/-- A resolved selector target, the `getStyleTargets(block, sel.key)` result.
Modelled from the spec: `getStyleTargets` is not under `src/`; the spec
describes "a small struct/record holding the (possibly empty) list of matching
attribute-style-nodes and the (possibly empty) list of matching
class-style-nodes".  The lists hold positions into `Block.styleNodes`, and
`repr` is the stringification of the parsed selector (used in the fatal error
message).  Because selector resolution is an external collaborator, each
parsed selector key is carried already resolved. -/
structure SelKey where
  blockAttrs : List Nat
  blockClasses : List Nat
  repr : String
deriving DecidableEq, Repr

/-- A postcss declaration: property name, raw value, and a source-location
token (standing for the line/column data `sourceRange` reads). -/
structure Decl where
  prop : String
  value : String
  loc : Nat
deriving DecidableEq, Repr

/-- A postcss rule together with the parsed selector keys
`block.getParsedSelectors(rule)` yields for it (selector parsing is an
external collaborator, so its result is part of the input). -/
structure Rule where
  selKeys : List SelKey
  decls : List Decl
deriving DecidableEq, Repr

/-- The parsed document: a definition file is a flat list of rules. -/
structure Root where
  rules : List Rule
deriving DecidableEq, Repr

/-- Quote characters. -/
def isQuoteChar (c : Char) : Bool :=
  c = '"' || c = '\''

/-- `stripQuotes` from `BlockParser/utils`.  Modelled from the spec: the
utility is not under `src/`; the spec says "Strip any surrounding quote
characters from the raw value". -/
def stripQuotes (s : String) : String :=
  match s.data with
  | [] => s
  | c :: rest =>
    if isQuoteChar c ∧ rest.getLast? = some c ∧ rest ≠ [] then
      ⟨rest.dropLast⟩
    else s

/-- JavaScript whitespace skipped by `parseInt`. -/
def isJsSpace (c : Char) : Bool :=
  c = ' ' || c = '\t' || c = '\n' || c = '\r' || c = '\x0b' || c = '\x0c'

/-- Digits of a base-10 numeral, most significant first, as a natural
number. -/
def digitsToNat (ds : List Char) : Nat :=
  ds.foldl (fun acc c => acc * 10 + (c.toNat - '0'.toNat)) 0

/-- JavaScript `parseInt(s, 10)`: skip leading whitespace, read an optional
sign, then the longest prefix of decimal digits; `NaN` (here `none`) when
that prefix is empty, otherwise the signed value.  Trailing characters are
ignored. -/
def jsParseInt (s : String) : Option Int :=
  let cs := s.data.dropWhile isJsSpace
  let signAndRest : Int × List Char :=
    match cs with
    | '-' :: rest => (-1, rest)
    | '+' :: rest => (1, rest)
    | _ => (1, cs)
  let digits := signAndRest.2.takeWhile Char.isDigit
  if digits.isEmpty then none
  else some (signAndRest.1 * (digitsToNat digits : Int))

/-- Message of the numeric-parse validation error. -/
def numberErrorMsg : String := "block-interface-index must be a number."

/-- Message of the duplicate-index validation error. -/
def uniqueErrorMsg : String := "Each block-interface-index in a definition file must be unique."

/-- Message of the fatal internal-consistency error thrown when a resolved
selector target matches no style node. -/
def noStyleNodeMsg (selRepr : String) : String :=
  "Couldn\x27t find style node corresponding to selector " ++ selRepr ++ ". This shouldn\x27t happen."

/-- Message of the completeness-audit error for a style node whose index was
never reset. -/
def auditErrorMsg (src : String) : String :=
  "Style node " ++ src ++ " doesn\x27t have a preset interface index after parsing definition file. You may need to declare this style node in the definition file."

/-- The `index` setter of a style node: it stores the value and raises the
`wasIndexReset` flag.  Modelled from the spec: the `Style` class is not under
`src/`; the spec says "Mark the assigned style node as index was reset". -/
def setIdx (v : Option Int) (n : StyleNode) : StyleNode :=
  { n with index := v, wasIndexReset := true }

/-- Positional update of a style-node list: `styleTarget.blockAttrs[0].index =
parsedIndex` mutates one node object; with positional identities that is an
update of the node at position `i`. -/
def setOp (N : List StyleNode) (i : Nat) (v : Option Int) : List StyleNode :=
  match N, i with
  | [], _ => []
  | n :: rest, 0 => setIdx v n :: rest
  | n :: rest, Nat.succ j => n :: setOp rest j v

/-- `block` with the style node at position `i` assigned index `v`. -/
def Block.setNodeIndex (b : Block) (i : Nat) (v : Option Int) : Block :=
  { b with styleNodes := setOp b.styleNodes i v }

/-- One resolved selector target processed, mirroring the body of the
`parsedSelectors.forEach` callback: assign to the first attribute match if
any, else to the first class match, else throw.  The error value carries the
block state at the throw (in-place mutation keeps prior assignments). -/
def applySel (v : Option Int) (b : Block) (sel : SelKey) : Except (String × Block) Block :=
  match sel.blockAttrs with
  | i :: _ => Except.ok (b.setNodeIndex i v)
  | [] =>
    match sel.blockClasses with
    | i :: _ => Except.ok (b.setNodeIndex i v)
    | [] => Except.error (noStyleNodeMsg sel.repr, b)

/-- State threaded through the walk: the `foundIndexes` array and the block.
`foundIndexes : List (Option Int)` because the source pushes `parsedIndex`
even when it is `NaN`, and `includes` (SameValueZero) matches `NaN` with
`NaN`. -/
structure WalkState where
  foundIndexes : List (Option Int)
  block : Block
deriving DecidableEq, Repr

/-- Body of the `rule.walkDecls("block-interface-index", decl => ...)`
callback: strip quotes, parse, record the two validation errors, update
`foundIndexes`, then assign the index to every resolved selector target of
the rule. -/
def processDecl (file : String) (rule : Rule) (st : WalkState) (decl : Decl) :
    Except (String × Block) WalkState :=
  let val := stripQuotes decl.value
  let parsedIndex := jsParseInt val
  let b1 :=
    if parsedIndex.isNone then
      st.block.addError ⟨numberErrorMsg, ErrLoc.range file decl.loc⟩
    else st.block
  let fb : List (Option Int) × Block :=
    if st.foundIndexes.contains parsedIndex then
      (st.foundIndexes, b1.addError ⟨uniqueErrorMsg, ErrLoc.range file decl.loc⟩)
    else
      (st.foundIndexes ++ [parsedIndex], b1)
  match rule.selKeys.foldlM (applySel parsedIndex) fb.2 with
  | Except.ok b3 => Except.ok ⟨fb.1, b3⟩
  | Except.error e => Except.error e

/-- The declarations `rule.walkDecls("block-interface-index", ...)` visits:
those whose property name is exactly `block-interface-index`, in order. -/
def ruleDecls (rule : Rule) : List Decl :=
  rule.decls.filter (fun d => d.prop = "block-interface-index")

/-- One rule processed: the `block-interface-index` declarations of the rule,
folded through `processDecl`. -/
def processRule (file : String) (st : WalkState) (rule : Rule) :
    Except (String × Block) WalkState :=
  (ruleDecls rule).foldlM (processDecl file rule) st

/-- The completeness audit: `block.all(true).forEach(...)` adds one error per
style node whose `wasIndexReset` flag is still false, attributed to the file
as a whole. -/
def auditBlock (file : String) (b : Block) : Block :=
  b.styleNodes.foldl
    (fun acc n =>
      if n.wasIndexReset then acc
      else acc.addError ⟨auditErrorMsg n.src, ErrLoc.fileOnly file⟩)
    b

/-- The whole `addInterfaceIndexes(configuration, root, block, file)` pass:
walk every rule (threading `foundIndexes` and the block), then run the
completeness audit.  The configuration argument is only ever forwarded to
`sourceRange` and is absorbed into the location model.  A thrown error
short-circuits before the audit, carrying the partially mutated block. -/
def addInterfaceIndexes (root : Root) (file : String) (b : Block) :
    Except (String × Block) Block :=
  match root.rules.foldlM (processRule file) ⟨[], b⟩ with
  | Except.ok st => Except.ok (auditBlock file st.block)
  | Except.error e => Except.error e

/-!
Derived specification functions.  These are not part of the embedding: they
name the data the walk manipulates (which node each resolved target picks,
which assignments the walk performs, which soft errors it records), and the
characterization lemmas below prove that the embedded code computes exactly
these.
-/

/-- The one style-node position a resolved selector target assigns to: the
first attribute match when one exists, else the first class match; `none`
when the target is empty (the fatal case). -/
def resolvedTarget (sel : SelKey) : Option Nat :=
  match sel.blockAttrs with
  | i :: _ => some i
  | [] => sel.blockClasses.head?

/-- A sequence of positional index assignments, applied left to right. -/
def applyOps (ops : List (Nat × Option Int)) (N : List StyleNode) : List StyleNode :=
  ops.foldl (fun N op => setOp N op.1 op.2) N

/-- The value of the last assignment a sequence of ops makes at position `i`,
if any. -/
def lastWrite (ops : List (Nat × Option Int)) (i : Nat) : Option (Option Int) :=
  match ops with
  | [] => none
  | op :: rest =>
    match lastWrite rest i with
    | some v => some v
    | none => if op.1 = i then some op.2 else none

/-- The parse result of a declaration's value, quotes stripped. -/
def parsedOf (decl : Decl) : Option Int :=
  jsParseInt (stripQuotes decl.value)

/-- The assignments a list of resolved selector targets performs for one
value: one write per target that resolves, at its chosen position. -/
def selOps (v : Option Int) (sels : List SelKey) : List (Nat × Option Int) :=
  sels.filterMap (fun s => (resolvedTarget s).map (fun i => (i, v)))

/-- The assignments one declaration performs: one per resolved selector key
of its rule, each writing the declaration's parse result. -/
def declOps (rule : Rule) (decl : Decl) : List (Nat × Option Int) :=
  selOps (parsedOf decl) rule.selKeys

/-- How `foundIndexes` evolves over one declaration. -/
def stepFound (f : List (Option Int)) (p : Option Int) : List (Option Int) :=
  if f.contains p then f else f ++ [p]

/-- `foundIndexes` after a list of declarations. -/
def foundAfter (ds : List Decl) (f : List (Option Int)) : List (Option Int) :=
  ds.foldl (fun f d => stepFound f (parsedOf d)) f

/-- The soft validation errors one declaration records, given the current
`foundIndexes`. -/
def declSoftErrs (file : String) (f : List (Option Int)) (decl : Decl) : List CssBlockError :=
  (if (parsedOf decl).isNone then [⟨numberErrorMsg, ErrLoc.range file decl.loc⟩] else [])
    ++ (if f.contains (parsedOf decl) then [⟨uniqueErrorMsg, ErrLoc.range file decl.loc⟩] else [])

/-- The soft validation errors a list of declarations records, threading
`foundIndexes`. -/
def errsOf (file : String) (ds : List Decl) (f : List (Option Int)) : List CssBlockError :=
  match ds with
  | [] => []
  | d :: rest => declSoftErrs file f d ++ errsOf file rest (stepFound f (parsedOf d))

/-- Every visited declaration of a list of rules, paired with its rule, in
visit order. -/
def walkDecls (rules : List Rule) : List (Rule × Decl) :=
  rules.flatMap (fun r => (ruleDecls r).map (fun d => (r, d)))

/-- Every visited declaration of the document, paired with its rule. -/
def rootDecls (root : Root) : List (Rule × Decl) :=
  walkDecls root.rules

/-- The visited declarations of the document, in visit order. -/
def declsOf (root : Root) : List Decl :=
  (rootDecls root).map Prod.snd

/-- The full assignment sequence the walk over the document performs. -/
def opsOf (root : Root) : List (Nat × Option Int) :=
  (rootDecls root).flatMap (fun rd => declOps rd.1 rd.2)

/-- A freshly reset copy of a block: all `wasIndexReset` flags false, no
accumulated errors; indexes keep their values (nothing un-assigns them). -/
def resetBlock (b : Block) : Block :=
  ⟨b.styleNodes.map (fun n => { n with wasIndexReset := false }), []⟩

/-- Having only soft validation errors appended relative to a starting
block: every new error is one of the two per-declaration validation errors
and carries an in-file source range (never the whole-file attribution the
audit uses, and never the fatal message). -/
def SoftOnly (file : String) (b0 b : Block) : Prop :=
  ∃ l, b.errors = b0.errors ++ l ∧
    ∀ e ∈ l, (e.message = numberErrorMsg ∨ e.message = uniqueErrorMsg) ∧
      ∃ loc, e.loc = ErrLoc.range file loc

/-!
Basic lemmas about the assignment primitives.
-/

theorem setIdx_setIdx (v w : Option Int) (n : StyleNode) : setIdx v (setIdx w n) = setIdx v n := rfl

theorem setOp_getElem? (N : List StyleNode) (i : Nat) (v : Option Int) (j : Nat) :
    (setOp N i v)[j]? = if j = i then N[j]?.map (setIdx v) else N[j]? := by
  induction N generalizing i j with
  | nil => simp [setOp]
  | cons n rest ih =>
    cases i with
    | zero =>
      cases j with
      | zero => simp [setOp]
      | succ k => simp [setOp]
    | succ m =>
      cases j with
      | zero => simp [setOp]
      | succ k => simpa [setOp] using ih m k

theorem applyOps_cons (op : Nat × Option Int) (ops : List (Nat × Option Int))
    (N : List StyleNode) : applyOps (op :: ops) N = applyOps ops (setOp N op.1 op.2) := rfl

theorem applyOps_append (o1 o2 : List (Nat × Option Int)) (N : List StyleNode) :
    applyOps (o1 ++ o2) N = applyOps o2 (applyOps o1 N) := by
  simp [applyOps, List.foldl_append]

theorem lastWrite_mem {ops : List (Nat × Option Int)} {i : Nat} {v : Option Int}
    (h : lastWrite ops i = some v) : (i, v) ∈ ops := by
  induction ops with
  | nil => simp [lastWrite] at h
  | cons op rest ih =>
    rw [lastWrite] at h
    cases hr : lastWrite rest i with
    | some w =>
      rw [hr] at h
      cases h
      exact List.mem_cons_of_mem _ (ih hr)
    | none =>
      rw [hr] at h
      by_cases hop : op.1 = i
      · rw [if_pos hop] at h
        cases h
        subst hop
        exact List.mem_cons_self _ _
      · rw [if_neg hop] at h
        cases h

theorem applyOps_getElem?_none {ops : List (Nat × Option Int)} {i : Nat}
    (h : lastWrite ops i = none) (N : List StyleNode) :
    (applyOps ops N)[i]? = N[i]? := by
  induction ops generalizing N with
  | nil => rfl
  | cons op rest ih =>
    rw [lastWrite] at h
    cases hr : lastWrite rest i with
    | some w => rw [hr] at h; cases h
    | none =>
      rw [hr] at h
      by_cases hop : op.1 = i
      · rw [if_pos hop] at h; cases h
      · rw [applyOps_cons, ih hr, setOp_getElem?, if_neg (fun hh => hop hh.symm)]

theorem applyOps_getElem?_some {ops : List (Nat × Option Int)} {i : Nat} {v : Option Int}
    (h : lastWrite ops i = some v) (N : List StyleNode) :
    (applyOps ops N)[i]? = N[i]?.map (setIdx v) := by
  induction ops generalizing N with
  | nil => simp [lastWrite] at h
  | cons op rest ih =>
    rw [lastWrite] at h
    cases hr : lastWrite rest i with
    | some w =>
      rw [hr] at h
      cases h
      rw [applyOps_cons, ih hr, setOp_getElem?]
      by_cases hj : i = op.1
      · rw [if_pos hj]
        cases N[i]? with
        | none => rfl
        | some nb => simp [setIdx_setIdx]
      · rw [if_neg hj]
    | none =>
      rw [hr] at h
      by_cases hop : op.1 = i
      · rw [if_pos hop] at h
        cases h
        rw [applyOps_cons, applyOps_getElem?_none hr, setOp_getElem?, if_pos hop.symm]
      · rw [if_neg hop] at h
        cases h

theorem lastWrite_of_mem_const {ops : List (Nat × Option Int)} {i : Nat} {v : Option Int}
    (hall : ∀ op ∈ ops, op.2 = v) (hmem : (i, v) ∈ ops) : lastWrite ops i = some v := by
  induction ops with
  | nil => cases hmem
  | cons op rest ih =>
    rw [lastWrite]
    cases hr : lastWrite rest i with
    | some w =>
      have hw : (i, w) ∈ rest := lastWrite_mem hr
      have : w = v := hall (i, w) (List.mem_cons_of_mem _ hw)
      rw [this]
    | none =>
      cases List.mem_cons.mp hmem with
      | inl heq =>
        rw [← heq]
        simp
      | inr hrest =>
        have := ih (fun op hop => hall op (List.mem_cons_of_mem _ hop)) hrest
        rw [this] at hr
        cases hr

/-!
The per-target assignment, characterized through `resolvedTarget`, and the
fold over a rule's resolved selector targets.
-/

theorem applySel_eq (v : Option Int) (b : Block) (sel : SelKey) :
    applySel v b sel =
      match resolvedTarget sel with
      | some i => Except.ok (b.setNodeIndex i v)
      | none => Except.error (noStyleNodeMsg sel.repr, b) := by
  cases hA : sel.blockAttrs with
  | cons i t => simp [applySel, resolvedTarget, hA]
  | nil =>
    cases hC : sel.blockClasses with
    | cons i t => simp [applySel, resolvedTarget, hA, hC]
    | nil => simp [applySel, resolvedTarget, hA, hC]

theorem selFold_ok (v : Option Int) :
    ∀ (sels : List SelKey) (b : Block),
      (∀ sel ∈ sels, (resolvedTarget sel).isSome) →
      sels.foldlM (applySel v) b =
        Except.ok { b with styleNodes := applyOps (selOps v sels) b.styleNodes } := by
  intro sels
  induction sels with
  | nil => intro b h; rfl
  | cons sel rest ih =>
    intro b h
    have hs := h sel (List.mem_cons_self _ _)
    cases ht : resolvedTarget sel with
    | none => rw [ht] at hs; simp at hs
    | some i =>
      rw [List.foldlM_cons, applySel_eq, ht]
      show rest.foldlM (applySel v) (b.setNodeIndex i v) = _
      rw [ih _ (fun s hs' => h s (List.mem_cons_of_mem _ hs'))]
      have hsel : selOps v (sel :: rest) = (i, v) :: selOps v rest := by
        simp [selOps, ht]
      rw [hsel, applyOps_cons]
      rfl

theorem selFold_errors (v : Option Int) :
    ∀ (sels : List SelKey) (b : Block),
      (∀ b', sels.foldlM (applySel v) b = Except.ok b' → b'.errors = b.errors) ∧
      (∀ m b', sels.foldlM (applySel v) b = Except.error (m, b') → b'.errors = b.errors) := by
  intro sels
  induction sels with
  | nil =>
    intro b
    constructor
    · intro b' h
      cases h
      rfl
    · intro m b' h
      cases h
  | cons sel rest ih =>
    intro b
    rw [List.foldlM_cons, applySel_eq]
    cases ht : resolvedTarget sel with
    | none =>
      constructor
      · intro b' h; cases h
      · intro m b' h
        cases h
        rfl
    | some i =>
      have := ih (b.setNodeIndex i v)
      constructor
      · intro b' h
        exact this.1 b' h
      · intro m b' h
        exact this.2 m b' h

theorem selFold_ok_resolved (v : Option Int) :
    ∀ (sels : List SelKey) (b b' : Block),
      sels.foldlM (applySel v) b = Except.ok b' →
      ∀ sel ∈ sels, (resolvedTarget sel).isSome := by
  intro sels
  induction sels with
  | nil => intro b b' _ sel hmem; cases hmem
  | cons a rest ih =>
    intro b b' h sel hmem
    rw [List.foldlM_cons, applySel_eq] at h
    cases ht : resolvedTarget a with
    | none => rw [ht] at h; cases h
    | some i =>
      rw [ht] at h
      cases List.mem_cons.mp hmem with
      | inl heq => rw [heq, ht]; rfl
      | inr hrest => exact ih _ _ h sel hrest

theorem selFold_err (v : Option Int) :
    ∀ (sels : List SelKey) (sel : SelKey), sel ∈ sels → resolvedTarget sel = none →
      ∀ b : Block, ∃ e, sels.foldlM (applySel v) b = Except.error e := by
  intro sels
  induction sels with
  | nil => intro sel hmem; cases hmem
  | cons a rest ih =>
    intro sel hmem hnone b
    rw [List.foldlM_cons, applySel_eq]
    cases ht : resolvedTarget a with
    | none => exact ⟨(noStyleNodeMsg a.repr, b), rfl⟩
    | some i =>
      cases List.mem_cons.mp hmem with
      | inl heq => rw [heq, ht] at hnone; cases hnone
      | inr hrest => exact ih sel hrest hnone (b.setNodeIndex i v)

/-!
Generic facts about `foldlM` over the `Except` monad.
-/

theorem foldlM_err {σ α ε : Type} (g : σ → α → Except ε σ) (x : α)
    (hx : ∀ s, ∃ e, g s x = Except.error e) :
    ∀ (l : List α), x ∈ l → ∀ s, ∃ e, l.foldlM g s = Except.error e := by
  intro l
  induction l with
  | nil => intro hmem; cases hmem
  | cons a rest ih =>
    intro hmem s
    cases hga : g s a with
    | error e =>
      refine ⟨e, ?_⟩
      rw [List.foldlM_cons, hga]
      rfl
    | ok s' =>
      cases List.mem_cons.mp hmem with
      | inl hxa =>
        obtain ⟨e, he⟩ := hx s
        rw [← hxa, he] at hga
        cases hga
      | inr hxr =>
        obtain ⟨e, he⟩ := ih hxr s'
        refine ⟨e, ?_⟩
        rw [List.foldlM_cons, hga]
        exact he

theorem foldlM_ok_elem {σ α ε : Type} (g : σ → α → Except ε σ) :
    ∀ (l : List α) (s s' : σ), l.foldlM g s = Except.ok s' →
      ∀ x ∈ l, ∃ s1 s2, g s1 x = Except.ok s2 := by
  intro l
  induction l with
  | nil => intro s s' _ x hmem; cases hmem
  | cons a rest ih =>
    intro s s' h x hmem
    rw [List.foldlM_cons] at h
    cases hga : g s a with
    | error e =>
      rw [hga] at h
      cases h
    | ok t =>
      rw [hga] at h
      cases List.mem_cons.mp hmem with
      | inl hxa => exact ⟨s, t, by rw [hxa]; exact hga⟩
      | inr hxr => exact ih t s' h x hxr

theorem foldlM_pres {σ α ε : Type} (g : σ → α → Except ε σ) (P : σ → Prop) (Q : ε → Prop)
    (hg : ∀ s a, P s → (∀ s', g s a = Except.ok s' → P s') ∧ (∀ e, g s a = Except.error e → Q e)) :
    ∀ (l : List α) (s : σ), P s →
      (∀ s', l.foldlM g s = Except.ok s' → P s') ∧
      (∀ e, l.foldlM g s = Except.error e → Q e) := by
  intro l
  induction l with
  | nil =>
    intro s hP
    constructor
    · intro s' h
      cases h
      exact hP
    · intro e h
      cases h
  | cons a rest ih =>
    intro s hP
    have hstep := hg s a hP
    constructor
    · intro s' h
      rw [List.foldlM_cons] at h
      cases hga : g s a with
      | error e => rw [hga] at h; cases h
      | ok t =>
        rw [hga] at h
        exact (ih t (hstep.1 t hga)).1 s' h
    · intro e h
      rw [List.foldlM_cons] at h
      cases hga : g s a with
      | error e' =>
        rw [hga] at h
        cases h
        exact hstep.2 e hga
      | ok t =>
        rw [hga] at h
        exact (ih t (hstep.1 t hga)).2 e h

/-!
Characterization of one processed declaration.
-/

theorem processDecl_split (file : String) (rule : Rule) (st : WalkState) (decl : Decl) :
    processDecl file rule st decl =
      match rule.selKeys.foldlM (applySel (parsedOf decl))
          { styleNodes := st.block.styleNodes,
            errors := st.block.errors ++ declSoftErrs file st.foundIndexes decl } with
      | Except.ok b3 => Except.ok ⟨stepFound st.foundIndexes (parsedOf decl), b3⟩
      | Except.error e => Except.error e := by
  unfold processDecl
  by_cases h1 : jsParseInt (stripQuotes decl.value) = none
  · by_cases h2 : (none : Option Int) ∈ st.foundIndexes <;>
      simp [parsedOf, h1, h2, declSoftErrs, stepFound, Block.addError]
  · by_cases h2 : jsParseInt (stripQuotes decl.value) ∈ st.foundIndexes <;>
      simp [parsedOf, h1, h2, declSoftErrs, stepFound, Block.addError]

theorem processDecl_char (file : String) (rule : Rule) (st : WalkState) (decl : Decl)
    (h : ∀ sel ∈ rule.selKeys, (resolvedTarget sel).isSome) :
    processDecl file rule st decl =
      Except.ok ⟨stepFound st.foundIndexes (parsedOf decl),
        { styleNodes := applyOps (declOps rule decl) st.block.styleNodes,
          errors := st.block.errors ++ declSoftErrs file st.foundIndexes decl }⟩ := by
  rw [processDecl_split, selFold_ok (parsedOf decl) rule.selKeys _ h]
  rfl

theorem processDecl_ok_shape {file : String} {rule : Rule} {st : WalkState} {decl : Decl}
    {st' : WalkState} (h : processDecl file rule st decl = Except.ok st') :
    st'.foundIndexes = stepFound st.foundIndexes (parsedOf decl) ∧
    st'.block.errors = st.block.errors ++ declSoftErrs file st.foundIndexes decl ∧
    ∀ sel ∈ rule.selKeys, (resolvedTarget sel).isSome := by
  rw [processDecl_split] at h
  cases hf : rule.selKeys.foldlM (applySel (parsedOf decl))
      { styleNodes := st.block.styleNodes,
        errors := st.block.errors ++ declSoftErrs file st.foundIndexes decl } with
  | error e => rw [hf] at h; cases h
  | ok b3 =>
    rw [hf] at h
    cases h
    refine ⟨rfl, ?_, selFold_ok_resolved _ _ _ _ hf⟩
    have := (selFold_errors (parsedOf decl) rule.selKeys _).1 b3 hf
    simpa using this

theorem processDecl_err_shape {file : String} {rule : Rule} {st : WalkState} {decl : Decl}
    {m : String} {b' : Block} (h : processDecl file rule st decl = Except.error (m, b')) :
    b'.errors = st.block.errors ++ declSoftErrs file st.foundIndexes decl := by
  rw [processDecl_split] at h
  cases hf : rule.selKeys.foldlM (applySel (parsedOf decl))
      { styleNodes := st.block.styleNodes,
        errors := st.block.errors ++ declSoftErrs file st.foundIndexes decl } with
  | ok b3 => rw [hf] at h; cases h
  | error e =>
    rw [hf] at h
    cases h
    have := (selFold_errors (parsedOf decl) rule.selKeys _).2 m b' hf
    simpa using this

/-!
Composition over declaration lists and rule lists.
-/

theorem foundAfter_append (ds1 ds2 : List Decl) (f : List (Option Int)) :
    foundAfter (ds1 ++ ds2) f = foundAfter ds2 (foundAfter ds1 f) := by
  simp [foundAfter, List.foldl_append]

theorem errsOf_append (file : String) (ds1 ds2 : List Decl) (f : List (Option Int)) :
    errsOf file (ds1 ++ ds2) f = errsOf file ds1 f ++ errsOf file ds2 (foundAfter ds1 f) := by
  induction ds1 generalizing f with
  | nil => simp [errsOf, foundAfter]
  | cons d rest ih => simp [errsOf, ih, foundAfter, List.append_assoc]

theorem declsFold_char (file : String) (rule : Rule) :
    ∀ (ds : List Decl) (f : List (Option Int)) (bk : Block),
      (∀ d ∈ ds, ∀ sel ∈ rule.selKeys, (resolvedTarget sel).isSome) →
      ds.foldlM (processDecl file rule) ⟨f, bk⟩ =
        Except.ok ⟨foundAfter ds f,
          { styleNodes := applyOps (ds.flatMap (declOps rule)) bk.styleNodes,
            errors := bk.errors ++ errsOf file ds f }⟩ := by
  intro ds
  induction ds with
  | nil =>
    intro f bk h
    simp [foundAfter, errsOf, applyOps]
    rfl
  | cons d rest ih =>
    intro f bk h
    rw [List.foldlM_cons, processDecl_char file rule ⟨f, bk⟩ d (h d (List.mem_cons_self _ _))]
    show rest.foldlM (processDecl file rule) _ = _
    rw [ih (stepFound f (parsedOf d)) _ (fun d' hd' => h d' (List.mem_cons_of_mem _ hd'))]
    simp [foundAfter, errsOf, List.flatMap_cons, applyOps_append, List.append_assoc]

theorem walkDecls_cons (r : Rule) (rest : List Rule) :
    walkDecls (r :: rest) = (ruleDecls r).map (fun d => (r, d)) ++ walkDecls rest := by
  simp [walkDecls]

theorem pairs_map_snd (r : Rule) (ds : List Decl) :
    (ds.map (fun d => (r, d))).map Prod.snd = ds := by
  simp

theorem pairs_flatMap_declOps (r : Rule) (ds : List Decl) :
    (ds.map (fun d => (r, d))).flatMap (fun rd => declOps rd.1 rd.2) = ds.flatMap (declOps r) := by
  induction ds with
  | nil => rfl
  | cons d rest ih => simp [List.flatMap_cons, ih]

theorem mem_walkDecls {rules : List Rule} {rd : Rule × Decl} :
    rd ∈ walkDecls rules ↔ rd.1 ∈ rules ∧ rd.2 ∈ ruleDecls rd.1 := by
  obtain ⟨r0, d0⟩ := rd
  simp only [walkDecls, List.mem_flatMap, List.mem_map]
  constructor
  · rintro ⟨r, hr, d, hd, heq⟩
    cases heq
    exact ⟨hr, hd⟩
  · rintro ⟨h1, h2⟩
    exact ⟨r0, h1, d0, h2, rfl⟩

theorem rulesFold_char (file : String) :
    ∀ (rules : List Rule) (f : List (Option Int)) (bk : Block),
      (∀ rd ∈ walkDecls rules, ∀ sel ∈ rd.1.selKeys, (resolvedTarget sel).isSome) →
      rules.foldlM (processRule file) ⟨f, bk⟩ =
        Except.ok ⟨foundAfter ((walkDecls rules).map Prod.snd) f,
          { styleNodes := applyOps ((walkDecls rules).flatMap (fun rd => declOps rd.1 rd.2)) bk.styleNodes,
            errors := bk.errors ++ errsOf file ((walkDecls rules).map Prod.snd) f }⟩ := by
  intro rules
  induction rules with
  | nil =>
    intro f bk h
    simp [walkDecls, foundAfter, errsOf, applyOps]
    rfl
  | cons r rest ih =>
    intro f bk h
    have hr : ∀ d ∈ ruleDecls r, ∀ sel ∈ r.selKeys, (resolvedTarget sel).isSome := by
      intro d hd
      exact h (r, d) (mem_walkDecls.mpr ⟨List.mem_cons_self _ _, hd⟩)
    rw [List.foldlM_cons]
    show ((ruleDecls r).foldlM (processDecl file r) ⟨f, bk⟩) >>= _ = _
    rw [declsFold_char file r (ruleDecls r) f bk hr]
    show rest.foldlM (processRule file) _ = _
    rw [ih _ _ (fun rd hrd => h rd (by rw [walkDecls_cons]; exact List.mem_append_right _ hrd))]
    rw [walkDecls_cons]
    simp [List.map_append, pairs_map_snd, pairs_flatMap_declOps, List.flatMap_append,
      applyOps_append, foundAfter_append, errsOf_append, List.append_assoc]

/-!
Characterization of the audit pass and of the whole run.
-/

theorem auditFold (file : String) :
    ∀ (ns : List StyleNode) (bk : Block),
      ns.foldl (fun acc n => if n.wasIndexReset then acc
          else acc.addError ⟨auditErrorMsg n.src, ErrLoc.fileOnly file⟩) bk =
      { bk with
        errors := bk.errors ++
          (ns.filter (fun n => !n.wasIndexReset)).map (fun n => ⟨auditErrorMsg n.src, ErrLoc.fileOnly file⟩) } := by
  intro ns
  induction ns with
  | nil => intro bk; simp
  | cons n rest ih =>
    intro bk
    cases hn : n.wasIndexReset with
    | true => simp [List.foldl_cons, hn, ih]
    | false =>
      rw [List.foldl_cons, if_neg (by simp [hn]),
        ih (bk.addError ⟨auditErrorMsg n.src, ErrLoc.fileOnly file⟩)]
      simp [Block.addError, hn, List.append_assoc]

theorem auditBlock_eq (file : String) (b : Block) :
    auditBlock file b =
      { b with
        errors := b.errors ++
          (b.styleNodes.filter (fun n => !n.wasIndexReset)).map (fun n => ⟨auditErrorMsg n.src, ErrLoc.fileOnly file⟩) } :=
  auditFold file b.styleNodes b

theorem auditBlock_styleNodes (file : String) (b : Block) :
    (auditBlock file b).styleNodes = b.styleNodes := by
  rw [auditBlock_eq]

theorem addII_ok_of_resolved (root : Root) (file : String) (b : Block)
    (h : ∀ rd ∈ rootDecls root, ∀ sel ∈ rd.1.selKeys, (resolvedTarget sel).isSome) :
    addInterfaceIndexes root file b =
      Except.ok (auditBlock file
        { styleNodes := applyOps (opsOf root) b.styleNodes,
          errors := b.errors ++ errsOf file (declsOf root) [] }) := by
  unfold addInterfaceIndexes
  rw [rulesFold_char file root.rules [] b h]
  rfl

theorem addII_ok_resolved {root : Root} {file : String} {b b' : Block}
    (h : addInterfaceIndexes root file b = Except.ok b') :
    ∀ rd ∈ rootDecls root, ∀ sel ∈ rd.1.selKeys, (resolvedTarget sel).isSome := by
  unfold addInterfaceIndexes at h
  cases hf : root.rules.foldlM (processRule file) ⟨[], b⟩ with
  | error e => rw [hf] at h; cases h
  | ok st =>
    intro rd hrd sel hsel
    obtain ⟨hr1, hr2⟩ := mem_walkDecls.mp hrd
    obtain ⟨s1, s2, hps⟩ := foldlM_ok_elem _ root.rules _ _ hf rd.1 hr1
    rw [processRule] at hps
    obtain ⟨t1, t2, hpd⟩ := foldlM_ok_elem _ (ruleDecls rd.1) _ _ hps rd.2 hr2
    exact (processDecl_ok_shape hpd).2.2 sel hsel

theorem run_ok_eq {root : Root} {file : String} {b b' : Block}
    (h : addInterfaceIndexes root file b = Except.ok b') :
    b' = auditBlock file
      { styleNodes := applyOps (opsOf root) b.styleNodes,
        errors := b.errors ++ errsOf file (declsOf root) [] } := by
  have hres := addII_ok_resolved h
  rw [addII_ok_of_resolved root file b hres] at h
  exact (Except.ok.inj h).symm

/-!
Which errors the walk can add: only the two soft validation errors, always
attributed to an in-file source range.
-/

theorem declSoftErrs_soft (file : String) (f : List (Option Int)) (decl : Decl) :
    ∀ e ∈ declSoftErrs file f decl,
      (e.message = numberErrorMsg ∨ e.message = uniqueErrorMsg) ∧
      ∃ loc, e.loc = ErrLoc.range file loc := by
  intro e he
  unfold declSoftErrs at he
  rcases List.mem_append.mp he with h | h
  · split_ifs at h
    · simp at h
      rw [h]
      exact ⟨Or.inl rfl, decl.loc, rfl⟩
    · simp at h
  · split_ifs at h
    · simp at h
      rw [h]
      exact ⟨Or.inr rfl, decl.loc, rfl⟩
    · simp at h

theorem errsOf_soft (file : String) :
    ∀ (ds : List Decl) (f : List (Option Int)),
      ∀ e ∈ errsOf file ds f,
        (e.message = numberErrorMsg ∨ e.message = uniqueErrorMsg) ∧
        ∃ loc, e.loc = ErrLoc.range file loc := by
  intro ds
  induction ds with
  | nil =>
    intro f e he
    simp [errsOf] at he
  | cons d rest ih =>
    intro f e he
    rw [errsOf] at he
    rcases List.mem_append.mp he with h | h
    · exact declSoftErrs_soft file f d e h
    · exact ih _ e h

theorem walk_soft {file : String} (b0 : Block) :
    ∀ (rules : List Rule) (st : WalkState), SoftOnly file b0 st.block →
      (∀ st', rules.foldlM (processRule file) st = Except.ok st' → SoftOnly file b0 st'.block) ∧
      (∀ e, rules.foldlM (processRule file) st = Except.error e → SoftOnly file b0 e.2) := by
  have hdecl : ∀ (rule : Rule) (st : WalkState) (decl : Decl), SoftOnly file b0 st.block →
      (∀ st', processDecl file rule st decl = Except.ok st' → SoftOnly file b0 st'.block) ∧
      (∀ e, processDecl file rule st decl = Except.error e → SoftOnly file b0 e.2) := by
    intro rule st decl hP
    obtain ⟨l, hl, hsoft⟩ := hP
    have hnew : ∀ e ∈ l ++ declSoftErrs file st.foundIndexes decl,
        (e.message = numberErrorMsg ∨ e.message = uniqueErrorMsg) ∧
        ∃ loc, e.loc = ErrLoc.range file loc := by
      intro e he
      rcases List.mem_append.mp he with h' | h'
      · exact hsoft e h'
      · exact declSoftErrs_soft _ _ _ e h'
    constructor
    · intro st' h
      refine ⟨l ++ declSoftErrs file st.foundIndexes decl, ?_, hnew⟩
      rw [(processDecl_ok_shape h).2.1, hl, List.append_assoc]
    · intro e h
      obtain ⟨m, b'⟩ := e
      refine ⟨l ++ declSoftErrs file st.foundIndexes decl, ?_, hnew⟩
      rw [processDecl_err_shape h, hl, List.append_assoc]
  intro rules st hP
  exact foldlM_pres (processRule file)
    (fun st => SoftOnly file b0 st.block) (fun e => SoftOnly file b0 e.2)
    (fun s rule hPs =>
      foldlM_pres (processDecl file rule)
        (fun st => SoftOnly file b0 st.block) (fun e => SoftOnly file b0 e.2)
        (fun s' d hPs' => hdecl rule s' d hPs') (ruleDecls rule) s hPs)
    rules st hP

theorem softOnly_refl (file : String) (b : Block) : SoftOnly file b b := by
  refine ⟨[], by simp, ?_⟩
  intro e he
  cases he

theorem run_err_soft {root : Root} {file : String} {b : Block} {m : String} {b'' : Block}
    (h : addInterfaceIndexes root file b = Except.error (m, b'')) :
    SoftOnly file b b'' := by
  unfold addInterfaceIndexes at h
  cases hf : root.rules.foldlM (processRule file) ⟨[], b⟩ with
  | ok st => rw [hf] at h; cases h
  | error e =>
    rw [hf] at h
    cases h
    exact (walk_soft b root.rules ⟨[], b⟩ (softOnly_refl file b)).2 (m, b'') hf

theorem run_err_of_empty_target {root : Root} {file : String} {b : Block}
    {rule : Rule} {decl : Decl} {sel : SelKey}
    (hr : rule ∈ root.rules) (hd : decl ∈ rule.decls) (hp : decl.prop = "block-interface-index")
    (hs : sel ∈ rule.selKeys) (hA : sel.blockAttrs = []) (hC : sel.blockClasses = []) :
    ∃ e, addInterfaceIndexes root file b = Except.error e := by
  have htarget : resolvedTarget sel = none := by
    simp [resolvedTarget, hA, hC]
  have hdR : decl ∈ ruleDecls rule := List.mem_filter.mpr ⟨hd, by simp [hp]⟩
  have hPD : ∀ st, ∃ e, processDecl file rule st decl = Except.error e := by
    intro st
    rw [processDecl_split]
    obtain ⟨e, he⟩ := selFold_err (parsedOf decl) rule.selKeys sel hs htarget
      { styleNodes := st.block.styleNodes,
        errors := st.block.errors ++ declSoftErrs file st.foundIndexes decl }
    rw [he]
    exact ⟨e, rfl⟩
  have hPR : ∀ st, ∃ e, processRule file st rule = Except.error e := by
    intro st
    exact foldlM_err (processDecl file rule) decl hPD (ruleDecls rule) hdR st
  obtain ⟨e, he⟩ := foldlM_err (processRule file) rule hPR root.rules hr ⟨[], b⟩
  refine ⟨e, ?_⟩
  unfold addInterfaceIndexes
  rw [he]

/-!
Auxiliary facts: injectivity of the audit message, provenance of the
assignments, idempotence of re-applying the same assignment sequence.
-/

theorem mem_of_getElem?_sn {l : List StyleNode} {i : Nat} {a : StyleNode}
    (h : l[i]? = some a) : a ∈ l := by
  have h2 : l.get? i = some a := by rw [List.get?_eq_getElem?, h]
  exact List.get?_mem h2

theorem auditErrorMsg_inj {s t : String} (h : auditErrorMsg s = auditErrorMsg t) : s = t := by
  unfold auditErrorMsg at h
  have hd := congrArg String.data h
  rw [String.data_append, String.data_append, String.data_append, String.data_append] at hd
  exact String.ext (List.append_cancel_left (List.append_cancel_right hd))

theorem declOps_val {rule : Rule} {decl : Decl} {op : Nat × Option Int}
    (h : op ∈ declOps rule decl) : op.2 = parsedOf decl := by
  unfold declOps selOps at h
  rcases List.mem_filterMap.mp h with ⟨sel, hsel, hmap⟩
  cases ht : resolvedTarget sel with
  | none => rw [ht] at hmap; cases hmap
  | some i =>
    rw [ht] at hmap
    simp at hmap
    rw [← hmap]

theorem declOps_target {rule : Rule} {decl : Decl} {i : Nat} {v : Option Int}
    (h : (i, v) ∈ declOps rule decl) :
    ∃ sel ∈ rule.selKeys, resolvedTarget sel = some i := by
  unfold declOps selOps at h
  rcases List.mem_filterMap.mp h with ⟨sel, hsel, hmap⟩
  cases ht : resolvedTarget sel with
  | none => rw [ht] at hmap; cases hmap
  | some j =>
    rw [ht] at hmap
    simp at hmap
    exact ⟨sel, hsel, by rw [ht, hmap.1]⟩

theorem declOps_mem_of_target {rule : Rule} {decl : Decl} {sel : SelKey} {i : Nat}
    (hsel : sel ∈ rule.selKeys) (ht : resolvedTarget sel = some i) :
    (i, parsedOf decl) ∈ declOps rule decl := by
  unfold declOps selOps
  exact List.mem_filterMap.mpr ⟨sel, hsel, by rw [ht]; rfl⟩

theorem opsOf_mem {root : Root} {op : Nat × Option Int} (h : op ∈ opsOf root) :
    ∃ rule decl, rule ∈ root.rules ∧ decl ∈ rule.decls ∧
      decl.prop = "block-interface-index" ∧ op ∈ declOps rule decl := by
  unfold opsOf rootDecls at h
  rcases List.mem_flatMap.mp h with ⟨rd, hrd, hop⟩
  obtain ⟨h1, h2⟩ := mem_walkDecls.mp hrd
  have hf := List.mem_filter.mp h2
  exact ⟨rd.1, rd.2, h1, hf.1, by simpa using hf.2, hop⟩

theorem setIdx_clear (v : Option Int) (n : StyleNode) :
    setIdx v { n with wasIndexReset := false } = setIdx v n := rfl

theorem applyOps_reset_idem (ops : List (Nat × Option Int)) (N : List StyleNode)
    (hflags : ∀ n ∈ N, n.wasIndexReset = false) :
    applyOps ops ((applyOps ops N).map (fun n => { n with wasIndexReset := false })) =
      applyOps ops N := by
  apply List.ext_getElem?
  intro i
  cases hw : lastWrite ops i with
  | some v =>
    rw [applyOps_getElem?_some hw, applyOps_getElem?_some hw, List.getElem?_map,
      applyOps_getElem?_some hw]
    cases hN : N[i]? with
    | none => rfl
    | some nb => simp [setIdx_clear, setIdx_setIdx]
  | none =>
    rw [applyOps_getElem?_none hw, applyOps_getElem?_none hw, List.getElem?_map,
      applyOps_getElem?_none hw]
    cases hN : N[i]? with
    | none => rfl
    | some nb =>
      have hflag := hflags nb (mem_of_getElem?_sn hN)
      show some ({ nb with wasIndexReset := false } : StyleNode) = some nb
      cases nb with
      | mk src idx flag =>
        simp at hflag
        rw [hflag]

/-!
How one declaration's assignments act on individual positions.
-/

theorem declOps_apply_target {rule : Rule} {decl : Decl} {sel : SelKey} {i : Nat}
    (hsel : sel ∈ rule.selKeys) (ht : resolvedTarget sel = some i)
    (N : List StyleNode) {nb : StyleNode} (hnb : N[i]? = some nb) :
    (applyOps (declOps rule decl) N)[i]? = some (setIdx (parsedOf decl) nb) := by
  have hop := @declOps_mem_of_target rule decl sel i hsel ht
  have hlw := lastWrite_of_mem_const (fun op hop' => declOps_val hop') hop
  rw [applyOps_getElem?_some hlw, hnb]
  rfl

theorem declOps_apply_untargeted {rule : Rule} {decl : Decl} {j : Nat}
    (hj : ∀ sel ∈ rule.selKeys, resolvedTarget sel ≠ some j) (N : List StyleNode) :
    (applyOps (declOps rule decl) N)[j]? = N[j]? := by
  cases hw : lastWrite (declOps rule decl) j with
  | none => exact applyOps_getElem?_none hw N
  | some v =>
    obtain ⟨sel, hsel, ht⟩ := declOps_target (lastWrite_mem hw)
    exact absurd ht (hj sel hsel)

theorem uniqueRec_ne_numberRec (file : String) (loc : Nat) :
    (⟨uniqueErrorMsg, ErrLoc.range file loc⟩ : CssBlockError) ≠
      ⟨numberErrorMsg, ErrLoc.range file loc⟩ := by
  intro h
  have hm : uniqueErrorMsg = numberErrorMsg := congrArg CssBlockError.message h
  exact absurd hm (by decide)

/-- C1: the claim asserts that a failed parse records exactly one number
error and leaves every style node unmutated for that declaration.  The code
records the error but does not skip the assignment: on the input below, the
node for `.foo` (initially index `some 5`, flag clear) ends up with index
`none` (the `NaN` parse result) and its reset flag raised. -/
theorem c1_counterexample :
    addInterfaceIndexes
        ⟨[⟨[⟨[], [0], ".foo"⟩], [⟨"block-interface-index", "abc", 0⟩]⟩]⟩ "def.css"
        ⟨[⟨".foo", some 5, false⟩], []⟩ =
      Except.ok ⟨[⟨".foo", none, true⟩], [⟨numberErrorMsg, ErrLoc.range "def.css" 0⟩]⟩ ∧
    (⟨".foo", none, true⟩ : StyleNode).index ≠ (⟨".foo", some 5, false⟩ : StyleNode).index :=
  ⟨rfl, by decide⟩

/-- C1 (amended): for every declaration whose value (after quote stripping)
fails base-10 parsing, `processDecl` records exactly one number error
attributed to that declaration's source location — but processing continues:
the `NaN` parse result is still assigned, so the style node chosen by each
resolved selector target of the rule IS mutated, its index becoming the
failed parse result (`none`) and its reset flag raised. -/
theorem c1_amended (file : String) (rule : Rule) (st : WalkState) (decl : Decl)
    (hparse : jsParseInt (stripQuotes decl.value) = none)
    (hres : ∀ sel ∈ rule.selKeys, (resolvedTarget sel).isSome) :
    ∃ st', processDecl file rule st decl = Except.ok st' ∧
      st'.block.errors.countP
          (fun e => decide (e = ⟨numberErrorMsg, ErrLoc.range file decl.loc⟩)) =
        st.block.errors.countP
          (fun e => decide (e = ⟨numberErrorMsg, ErrLoc.range file decl.loc⟩)) + 1 ∧
      ∀ sel ∈ rule.selKeys, ∀ i : Nat, resolvedTarget sel = some i →
        ∀ nb, st.block.styleNodes[i]? = some nb →
          st'.block.styleNodes[i]? = some ⟨nb.src, none, true⟩ := by
  have hp : parsedOf decl = none := hparse
  refine ⟨_, processDecl_char file rule st decl hres, ?_, ?_⟩
  · show (st.block.errors ++ declSoftErrs file st.foundIndexes decl).countP _ = _
    rw [List.countP_append]
    congr 1
    unfold declSoftErrs
    rw [hp]
    rw [List.countP_append]
    have h1 : List.countP
        (fun e : CssBlockError => decide (e = ⟨numberErrorMsg, ErrLoc.range file decl.loc⟩))
        [⟨numberErrorMsg, ErrLoc.range file decl.loc⟩] = 1 := by
      simp
    have h2 : List.countP
        (fun e : CssBlockError => decide (e = ⟨numberErrorMsg, ErrLoc.range file decl.loc⟩))
        (if List.contains st.foundIndexes none then
          [⟨uniqueErrorMsg, ErrLoc.range file decl.loc⟩] else []) = 0 := by
      split_ifs
      · simp [uniqueRec_ne_numberRec file decl.loc]
      · simp
    simp only [Option.isNone_none, if_true] at *
    rw [h1, h2]
  · intro sel hsel i ht nb hnb
    show (applyOps (declOps rule decl) st.block.styleNodes)[i]? = _
    rw [declOps_apply_target hsel ht st.block.styleNodes hnb, hp]
    rfl

theorem c1_witness :
    jsParseInt (stripQuotes "abc") = none ∧
    (∀ sel ∈ [(⟨[], [0], ".foo"⟩ : SelKey)], (resolvedTarget sel).isSome) ∧
    ∃ st', processDecl "def.css" ⟨[⟨[], [0], ".foo"⟩], [⟨"block-interface-index", "abc", 0⟩]⟩
        ⟨[], ⟨[⟨".foo", some 5, false⟩], []⟩⟩ ⟨"block-interface-index", "abc", 0⟩ = Except.ok st' ∧
      st'.block.errors.countP
          (fun e => decide (e = ⟨numberErrorMsg, ErrLoc.range "def.css" 0⟩)) =
        ([] : List CssBlockError).countP
          (fun e => decide (e = ⟨numberErrorMsg, ErrLoc.range "def.css" 0⟩)) + 1 ∧
      ∀ sel ∈ [(⟨[], [0], ".foo"⟩ : SelKey)], ∀ i : Nat, resolvedTarget sel = some i →
        ∀ nb, [(⟨".foo", some 5, false⟩ : StyleNode)][i]? = some nb →
          st'.block.styleNodes[i]? = some ⟨nb.src, none, true⟩ :=
  ⟨by decide, by decide,
    c1_amended "def.css" ⟨[⟨[], [0], ".foo"⟩], [⟨"block-interface-index", "abc", 0⟩]⟩
      ⟨[], ⟨[⟨".foo", some 5, false⟩], []⟩⟩ ⟨"block-interface-index", "abc", 0⟩
      (by decide) (by decide)⟩

/-- C2: the claim asserts that a duplicate index is not applied to any style
node and only the first declaration's node receives it.  The code records the
uniqueness error and skips only the `foundIndexes` push; the assignment still
runs.  Below, the second rule declares the same index 3, and its target
`[state|on]` (initially unset) ends up with index `some 3` as well. -/
theorem c2_counterexample :
    addInterfaceIndexes
        ⟨[⟨[⟨[], [0], ".foo"⟩], [⟨"block-interface-index", "3", 0⟩]⟩,
          ⟨[⟨[1], [], "[state|on]"⟩], [⟨"block-interface-index", "3", 1⟩]⟩]⟩ "def.css"
        ⟨[⟨".foo", some 5, false⟩, ⟨"[state|on]", none, false⟩], []⟩ =
      Except.ok ⟨[⟨".foo", some 3, true⟩, ⟨"[state|on]", some 3, true⟩],
        [⟨uniqueErrorMsg, ErrLoc.range "def.css" 1⟩]⟩ ∧
    (⟨"[state|on]", some 3, true⟩ : StyleNode).index ≠
      (⟨"[state|on]", none, false⟩ : StyleNode).index :=
  ⟨rfl, by decide⟩

/-- C2 (amended): for every declaration whose parsed index value is already
in `foundIndexes`, `processDecl` records exactly one uniqueness error at the
declaration's location and does not add the value to the set again — but the
index is still applied: the style node chosen by each resolved target of the
duplicate declaration also receives the index, so both the first and the
duplicating declarations have their targets written. -/
theorem c2_amended (file : String) (rule : Rule) (st : WalkState) (decl : Decl) (n : Int)
    (hparse : jsParseInt (stripQuotes decl.value) = some n)
    (hdup : st.foundIndexes.contains (some n) = true)
    (hres : ∀ sel ∈ rule.selKeys, (resolvedTarget sel).isSome) :
    ∃ st', processDecl file rule st decl = Except.ok st' ∧
      st'.foundIndexes = st.foundIndexes ∧
      st'.block.errors = st.block.errors ++ [⟨uniqueErrorMsg, ErrLoc.range file decl.loc⟩] ∧
      ∀ sel ∈ rule.selKeys, ∀ i : Nat, resolvedTarget sel = some i →
        ∀ nb, st.block.styleNodes[i]? = some nb →
          st'.block.styleNodes[i]? = some ⟨nb.src, some n, true⟩ := by
  have hp : parsedOf decl = some n := hparse
  refine ⟨_, processDecl_char file rule st decl hres, ?_, ?_, ?_⟩
  · show stepFound st.foundIndexes (parsedOf decl) = st.foundIndexes
    unfold stepFound
    rw [hp, if_pos hdup]
  · show st.block.errors ++ declSoftErrs file st.foundIndexes decl = _
    unfold declSoftErrs
    rw [hp]
    have hmem : some n ∈ st.foundIndexes := by simpa using hdup
    simp [hmem]
  · intro sel hsel i ht nb hnb
    show (applyOps (declOps rule decl) st.block.styleNodes)[i]? = _
    rw [declOps_apply_target hsel ht st.block.styleNodes hnb, hp]
    rfl

theorem c2_witness :
    jsParseInt (stripQuotes "3") = some 3 ∧
    ([some 3] : List (Option Int)).contains (some 3) = true ∧
    ∃ st', processDecl "def.css" ⟨[⟨[1], [], "[state|on]"⟩], [⟨"block-interface-index", "3", 1⟩]⟩
        ⟨[some 3], ⟨[⟨".foo", some 3, true⟩, ⟨"[state|on]", none, false⟩], []⟩⟩
        ⟨"block-interface-index", "3", 1⟩ = Except.ok st' ∧
      st'.foundIndexes = [some 3] ∧
      st'.block.errors = [] ++ [⟨uniqueErrorMsg, ErrLoc.range "def.css" 1⟩] ∧
      ∀ sel ∈ [(⟨[1], [], "[state|on]"⟩ : SelKey)], ∀ i : Nat, resolvedTarget sel = some i →
        ∀ nb, [(⟨".foo", some 3, true⟩ : StyleNode), ⟨"[state|on]", none, false⟩][i]? = some nb →
          st'.block.styleNodes[i]? = some ⟨nb.src, some 3, true⟩ :=
  ⟨by decide, by decide,
    c2_amended "def.css" ⟨[⟨[1], [], "[state|on]"⟩], [⟨"block-interface-index", "3", 1⟩]⟩
      ⟨[some 3], ⟨[⟨".foo", some 3, true⟩, ⟨"[state|on]", none, false⟩], []⟩⟩
      ⟨"block-interface-index", "3", 1⟩ 3 (by decide) (by decide) (by decide)⟩

/-- C3: the claim asserts a value is accepted exactly when it is purely
numeric, so that a digit string with trailing characters such as `12px` is a
per-declaration error.  JavaScript `parseInt("12px", 10)` returns 12: on the
input below the run records no error at all and assigns index 12. -/
theorem c3_counterexample :
    addInterfaceIndexes
        ⟨[⟨[⟨[], [0], ".foo"⟩], [⟨"block-interface-index", "12px", 0⟩]⟩]⟩ "def.css"
        ⟨[⟨".foo", some 5, false⟩], []⟩ =
      Except.ok ⟨[⟨".foo", some 12, true⟩], []⟩ ∧
    jsParseInt "12px" = some 12 :=
  ⟨rfl, rfl⟩

/-- C3 (amended): a number error is recorded for a declaration exactly when
JavaScript prefix parsing of the unquoted value fails, i.e. when the value
does not start (after optional whitespace and sign) with a decimal digit;
trailing non-digit characters are ignored rather than rejected, so values
like `12px` are accepted as 12. -/
theorem c3_amended (file : String) (rule : Rule) (st : WalkState) (decl : Decl)
    (st' : WalkState) (h : processDecl file rule st decl = Except.ok st') :
    st'.block.errors.countP (fun e => decide (e.message = numberErrorMsg)) =
      st.block.errors.countP (fun e => decide (e.message = numberErrorMsg)) +
        (if jsParseInt (stripQuotes decl.value) = none then 1 else 0) := by
  rw [(processDecl_ok_shape h).2.1, List.countP_append]
  congr 1
  unfold declSoftErrs
  rw [List.countP_append]
  have h2 : List.countP
      (fun e : CssBlockError => decide (e.message = numberErrorMsg))
      (if st.foundIndexes.contains (parsedOf decl) then
        [⟨uniqueErrorMsg, ErrLoc.range file decl.loc⟩] else []) = 0 := by
    split_ifs
    · simp
      decide
    · simp
  rw [h2]
  cases hp : parsedOf decl with
  | none =>
    rw [parsedOf] at hp
    rw [hp]
    simp
  | some n =>
    rw [parsedOf] at hp
    rw [hp]
    simp

theorem c3_witness :
    ∃ st', processDecl "def.css" ⟨[⟨[], [0], ".foo"⟩], [⟨"block-interface-index", "12px", 0⟩]⟩
        ⟨[], ⟨[⟨".foo", some 5, false⟩], []⟩⟩ ⟨"block-interface-index", "12px", 0⟩ =
          Except.ok st' ∧
      st'.block.errors.countP (fun e => decide (e.message = numberErrorMsg)) =
        ([] : List CssBlockError).countP (fun e => decide (e.message = numberErrorMsg)) +
          (if jsParseInt (stripQuotes "12px") = none then 1 else 0) :=
  ⟨⟨[some 12], ⟨[⟨".foo", some 12, true⟩], []⟩⟩, rfl,
    c3_amended "def.css" ⟨[⟨[], [0], ".foo"⟩], [⟨"block-interface-index", "12px", 0⟩]⟩
      ⟨[], ⟨[⟨".foo", some 5, false⟩], []⟩⟩ ⟨"block-interface-index", "12px", 0⟩
      ⟨[some 12], ⟨[⟨".foo", some 12, true⟩], []⟩⟩ rfl⟩

/-- C4: a resolved selector target with neither an attribute-style-node match
nor a class-style-node match makes `addInterfaceIndexes` abort with a thrown
error (`Except.error`), and the condition is never appended to the block's
soft-error list: every error the aborted run appended is one of the two
per-declaration validation errors, carrying an in-file source range — never
the fatal message and never the whole-file audit attribution. -/
theorem c4_fatal (root : Root) (file : String) (b : Block)
    (rule : Rule) (decl : Decl) (sel : SelKey)
    (hr : rule ∈ root.rules) (hd : decl ∈ rule.decls)
    (hp : decl.prop = "block-interface-index")
    (hs : sel ∈ rule.selKeys) (hA : sel.blockAttrs = []) (hC : sel.blockClasses = []) :
    ∃ m b'', addInterfaceIndexes root file b = Except.error (m, b'') ∧
      ∃ l, b''.errors = b.errors ++ l ∧
        ∀ e ∈ l, (e.message = numberErrorMsg ∨ e.message = uniqueErrorMsg) ∧
          ∃ loc, e.loc = ErrLoc.range file loc := by
  obtain ⟨e, he⟩ := run_err_of_empty_target hr hd hp hs hA hC
  obtain ⟨m, b''⟩ := e
  obtain ⟨l, hl, hsoft⟩ := run_err_soft he
  exact ⟨m, b'', he, l, hl, hsoft⟩

theorem c4_witness :
    ∃ m b'', addInterfaceIndexes
        ⟨[⟨[⟨[], [], ".gone"⟩], [⟨"block-interface-index", "1", 0⟩]⟩]⟩ "def.css"
        ⟨[], []⟩ = Except.error (m, b'') ∧
      ∃ l, b''.errors = ([] : List CssBlockError) ++ l ∧
        ∀ e ∈ l, (e.message = numberErrorMsg ∨ e.message = uniqueErrorMsg) ∧
          ∃ loc, e.loc = ErrLoc.range "def.css" loc :=
  c4_fatal ⟨[⟨[⟨[], [], ".gone"⟩], [⟨"block-interface-index", "1", 0⟩]⟩]⟩ "def.css" ⟨[], []⟩
    ⟨[⟨[], [], ".gone"⟩], [⟨"block-interface-index", "1", 0⟩]⟩
    ⟨"block-interface-index", "1", 0⟩ ⟨[], [], ".gone"⟩
    (by decide) (by decide) rfl (by decide) rfl rfl

/-- C9: among non-numeric declarations, the first pushes the failed parse
result (`NaN`, here `none`) into `foundIndexes`, and every later non-numeric
declaration finds it there (SameValueZero matches `NaN` with `NaN`), so it
records the uniqueness error in addition to its number error: exactly two
errors for that one declaration. -/
theorem c9_nan_dedup (file : String) (rule : Rule) (st : WalkState) (decl : Decl)
    (st' : WalkState)
    (hparse : jsParseInt (stripQuotes decl.value) = none)
    (h : processDecl file rule st decl = Except.ok st') :
    (st.foundIndexes.contains none = false →
      st'.foundIndexes = st.foundIndexes ++ [none]) ∧
    (st.foundIndexes.contains none = true →
      st'.block.errors = st.block.errors ++
        [⟨numberErrorMsg, ErrLoc.range file decl.loc⟩,
         ⟨uniqueErrorMsg, ErrLoc.range file decl.loc⟩]) := by
  have hp : parsedOf decl = none := hparse
  obtain ⟨hfound, herrs, _⟩ := processDecl_ok_shape h
  constructor
  · intro hnotmem
    rw [hfound]
    unfold stepFound
    rw [hp, if_neg (by rw [hnotmem]; exact Bool.false_ne_true)]
  · intro hmem
    rw [herrs]
    unfold declSoftErrs
    rw [hp]
    have hmem' : (none : Option Int) ∈ st.foundIndexes := by simpa using hmem
    simp [hmem']

theorem c9_witness :
    jsParseInt (stripQuotes "zz") = none ∧
    ∃ st', processDecl "def.css" ⟨[⟨[1], [], "[state|on]"⟩], [⟨"block-interface-index", "zz", 1⟩]⟩
        ⟨[none], ⟨[⟨".foo", none, true⟩, ⟨"[state|on]", none, false⟩], [⟨numberErrorMsg, ErrLoc.range "def.css" 0⟩]⟩⟩
        ⟨"block-interface-index", "zz", 1⟩ = Except.ok st' ∧
      (([none] : List (Option Int)).contains none = false →
        st'.foundIndexes = [none] ++ [none]) ∧
      (([none] : List (Option Int)).contains none = true →
        st'.block.errors = [⟨numberErrorMsg, ErrLoc.range "def.css" 0⟩] ++
          [⟨numberErrorMsg, ErrLoc.range "def.css" 1⟩,
           ⟨uniqueErrorMsg, ErrLoc.range "def.css" 1⟩]) :=
  ⟨by decide,
    ⟨[none], ⟨[⟨".foo", none, true⟩, ⟨"[state|on]", none, true⟩],
      [⟨numberErrorMsg, ErrLoc.range "def.css" 0⟩,
       ⟨numberErrorMsg, ErrLoc.range "def.css" 1⟩,
       ⟨uniqueErrorMsg, ErrLoc.range "def.css" 1⟩]⟩⟩, rfl,
    (c9_nan_dedup "def.css" ⟨[⟨[1], [], "[state|on]"⟩], [⟨"block-interface-index", "zz", 1⟩]⟩
      ⟨[none], ⟨[⟨".foo", none, true⟩, ⟨"[state|on]", none, false⟩], [⟨numberErrorMsg, ErrLoc.range "def.css" 0⟩]⟩⟩
      ⟨"block-interface-index", "zz", 1⟩
      ⟨[none], ⟨[⟨".foo", none, true⟩, ⟨"[state|on]", none, true⟩],
        [⟨numberErrorMsg, ErrLoc.range "def.css" 0⟩,
         ⟨numberErrorMsg, ErrLoc.range "def.css" 1⟩,
         ⟨uniqueErrorMsg, ErrLoc.range "def.css" 1⟩]⟩⟩
      (by decide) rfl)⟩

/-- C10: when the fatal no-matching-style-node condition aborts the pass, the
operation is not atomic: the error value carries the block exactly as mutated
so far.  Errors appended before the abort persist (they extend the initial
error list; nothing is rolled back) and the completeness audit never ran: all
appended errors are the two in-range validation errors, never the audit's
whole-file records.  The witness additionally exhibits an aborted run whose
carried block keeps an index assignment made before the throw. -/
theorem c10_nonatomic (root : Root) (file : String) (b : Block) (m : String) (b'' : Block)
    (h : addInterfaceIndexes root file b = Except.error (m, b'')) :
    ∃ l, b''.errors = b.errors ++ l ∧
      ∀ e ∈ l, (e.message = numberErrorMsg ∨ e.message = uniqueErrorMsg) ∧
        ∃ loc, e.loc = ErrLoc.range file loc := by
  obtain ⟨l, hl, hsoft⟩ := run_err_soft h
  exact ⟨l, hl, hsoft⟩

theorem c10_witness :
    addInterfaceIndexes
        ⟨[⟨[⟨[], [0], ".foo"⟩], [⟨"block-interface-index", "x", 0⟩]⟩,
          ⟨[⟨[], [], ".gone"⟩], [⟨"block-interface-index", "2", 1⟩]⟩]⟩ "def.css"
        ⟨[⟨".foo", some 5, false⟩], []⟩ =
      Except.error (noStyleNodeMsg ".gone",
        ⟨[⟨".foo", none, true⟩], [⟨numberErrorMsg, ErrLoc.range "def.css" 0⟩]⟩) ∧
    (∃ l, ([⟨numberErrorMsg, ErrLoc.range "def.css" 0⟩] : List CssBlockError) = [] ++ l ∧
      ∀ e ∈ l, (e.message = numberErrorMsg ∨ e.message = uniqueErrorMsg) ∧
        ∃ loc, e.loc = ErrLoc.range "def.css" loc) ∧
    ([⟨".foo", none, true⟩] : List StyleNode) ≠ [⟨".foo", some 5, false⟩] :=
  ⟨rfl,
    c10_nonatomic
      ⟨[⟨[⟨[], [0], ".foo"⟩], [⟨"block-interface-index", "x", 0⟩]⟩,
        ⟨[⟨[], [], ".gone"⟩], [⟨"block-interface-index", "2", 1⟩]⟩]⟩ "def.css"
      ⟨[⟨".foo", some 5, false⟩], []⟩ (noStyleNodeMsg ".gone")
      ⟨[⟨".foo", none, true⟩], [⟨numberErrorMsg, ErrLoc.range "def.css" 0⟩]⟩ rfl,
    by decide⟩

theorem resolvedTarget_head {sel : SelKey} {i : Nat} (ht : resolvedTarget sel = some i) :
    sel.blockAttrs.head? = some i ∨
      (sel.blockAttrs = [] ∧ sel.blockClasses.head? = some i) := by
  unfold resolvedTarget at ht
  cases hA : sel.blockAttrs with
  | cons a t =>
    rw [hA] at ht
    exact Or.inl ht
  | nil =>
    rw [hA] at ht
    exact Or.inr ⟨rfl, ht⟩

/-- C6: for a declaration carrying a new valid index, and for each resolved
selector key of its rule, the index is applied to exactly one style node per
target: the first attribute-style-node match when one exists, otherwise the
first class-style-node match; every position that is not the chosen first
match of some selector key of the rule is left unchanged. -/
theorem c6_first_match (file : String) (rule : Rule) (st : WalkState) (decl : Decl)
    (n : Int) (st' : WalkState)
    (hparse : jsParseInt (stripQuotes decl.value) = some n)
    (_hnew : st.foundIndexes.contains (some n) = false)
    (h : processDecl file rule st decl = Except.ok st') :
    (∀ j : Nat, (∀ sel ∈ rule.selKeys, resolvedTarget sel ≠ some j) →
      st'.block.styleNodes[j]? = st.block.styleNodes[j]?) ∧
    (∀ sel ∈ rule.selKeys, ∃ i : Nat,
      (sel.blockAttrs.head? = some i ∨
        (sel.blockAttrs = [] ∧ sel.blockClasses.head? = some i)) ∧
      ∀ nb, st.block.styleNodes[i]? = some nb →
        st'.block.styleNodes[i]? = some ⟨nb.src, some n, true⟩) := by
  have hres := (processDecl_ok_shape h).2.2
  have hst' : st' = ⟨stepFound st.foundIndexes (parsedOf decl),
      { styleNodes := applyOps (declOps rule decl) st.block.styleNodes,
        errors := st.block.errors ++ declSoftErrs file st.foundIndexes decl }⟩ := by
    rw [processDecl_char file rule st decl hres] at h
    exact (Except.ok.inj h).symm
  have hp : parsedOf decl = some n := hparse
  constructor
  · intro j hj
    rw [hst']
    exact declOps_apply_untargeted hj st.block.styleNodes
  · intro sel hsel
    have hsome := hres sel hsel
    cases ht : resolvedTarget sel with
    | none => rw [ht] at hsome; simp at hsome
    | some i =>
      refine ⟨i, resolvedTarget_head ht, ?_⟩
      intro nb hnb
      rw [hst']
      show (applyOps (declOps rule decl) st.block.styleNodes)[i]? = _
      rw [declOps_apply_target hsel ht st.block.styleNodes hnb, hp]
      rfl

theorem c6_witness :
    jsParseInt (stripQuotes "7") = some 7 ∧
    ([] : List (Option Int)).contains (some 7) = false ∧
    ∃ st', processDecl "def.css"
        ⟨[⟨[1], [0], "[state|on]"⟩], [⟨"block-interface-index", "7", 0⟩]⟩
        ⟨[], ⟨[⟨".foo", some 5, false⟩, ⟨"[state|on]", none, false⟩], []⟩⟩
        ⟨"block-interface-index", "7", 0⟩ = Except.ok st' ∧
      (∀ j : Nat, (∀ sel ∈ [(⟨[1], [0], "[state|on]"⟩ : SelKey)], resolvedTarget sel ≠ some j) →
        st'.block.styleNodes[j]? =
          [(⟨".foo", some 5, false⟩ : StyleNode), ⟨"[state|on]", none, false⟩][j]?) ∧
      (∀ sel ∈ [(⟨[1], [0], "[state|on]"⟩ : SelKey)], ∃ i : Nat,
        (sel.blockAttrs.head? = some i ∨
          (sel.blockAttrs = [] ∧ sel.blockClasses.head? = some i)) ∧
        ∀ nb, [(⟨".foo", some 5, false⟩ : StyleNode), ⟨"[state|on]", none, false⟩][i]? = some nb →
          st'.block.styleNodes[i]? = some ⟨nb.src, some 7, true⟩) :=
  ⟨by decide, by decide,
    ⟨[some 7], ⟨[⟨".foo", some 5, false⟩, ⟨"[state|on]", some 7, true⟩], []⟩⟩, rfl,
    c6_first_match "def.css"
      ⟨[⟨[1], [0], "[state|on]"⟩], [⟨"block-interface-index", "7", 0⟩]⟩
      ⟨[], ⟨[⟨".foo", some 5, false⟩, ⟨"[state|on]", none, false⟩], []⟩⟩
      ⟨"block-interface-index", "7", 0⟩ 7
      ⟨[some 7], ⟨[⟨".foo", some 5, false⟩, ⟨"[state|on]", some 7, true⟩], []⟩⟩
      (by decide) (by decide) rfl⟩

/-- C7: a style node that receives an index assignment during the pass (the
walk writes position `i`, last with value `v`) ends the pass with its reset
flag raised and its index equal to the declared value of that assignment —
a value parsed from one of the document's interface-index declarations — and
the completeness audit records no error for that node (assuming no
pre-existing whole-file errors and no other unreset node sharing its source
representation). -/
theorem c7_assigned (root : Root) (file : String) (b b' : Block) (i : Nat)
    (v : Option Int) (nb : StyleNode)
    (h : addInterfaceIndexes root file b = Except.ok b')
    (hw : lastWrite (opsOf root) i = some v)
    (hnb : b.styleNodes[i]? = some nb) :
    b'.styleNodes[i]? = some ⟨nb.src, v, true⟩ ∧
    (∃ rule decl, rule ∈ root.rules ∧ decl ∈ rule.decls ∧
      decl.prop = "block-interface-index" ∧ jsParseInt (stripQuotes decl.value) = v) ∧
    ((∀ e ∈ b.errors, e.loc ≠ ErrLoc.fileOnly file) →
      (∀ j m, j ≠ i → b'.styleNodes[j]? = some m → m.wasIndexReset = false →
        m.src ≠ nb.src) →
      ∀ e ∈ b'.errors, ¬(e.message = auditErrorMsg nb.src ∧ e.loc = ErrLoc.fileOnly file)) := by
  have hb' := run_ok_eq h
  have hN : b'.styleNodes = applyOps (opsOf root) b.styleNodes := by
    rw [hb', auditBlock_styleNodes]
  have hi : b'.styleNodes[i]? = some (setIdx v nb) := by
    rw [hN, applyOps_getElem?_some hw, hnb]
    rfl
  refine ⟨hi, ?_, ?_⟩
  · obtain ⟨rule, decl, h1, h2, h3, h4⟩ := opsOf_mem (lastWrite_mem hw)
    have hv : parsedOf decl = v := (declOps_val h4).symm
    exact ⟨rule, decl, h1, h2, h3, hv⟩
  · intro hclean hsrc e he hcontra
    obtain ⟨hmsg, hloc⟩ := hcontra
    have herr : b'.errors = (b.errors ++ errsOf file (declsOf root) []) ++
        ((applyOps (opsOf root) b.styleNodes).filter (fun n => !n.wasIndexReset)).map
          (fun n => ⟨auditErrorMsg n.src, ErrLoc.fileOnly file⟩) := by
      rw [hb', auditBlock_eq]
    rw [herr] at he
    rcases List.mem_append.mp he with he1 | he2
    · rcases List.mem_append.mp he1 with ha | hb2
      · exact absurd hloc (hclean e ha)
      · obtain ⟨_, loc, hle⟩ := errsOf_soft file _ _ e hb2
        rw [hle] at hloc
        exact ErrLoc.noConfusion hloc
    · rcases List.mem_map.mp he2 with ⟨m2, hm2f, hm2e⟩
      have hmem := List.mem_filter.mp hm2f
      have hflagm : m2.wasIndexReset = false := by simpa using hmem.2
      obtain ⟨jn, hjn⟩ := List.get?_of_mem hmem.1
      have hjn' : (applyOps (opsOf root) b.styleNodes)[jn]? = some m2 := by
        rw [← List.get?_eq_getElem?]
        exact hjn
      have hjne : jn ≠ i := by
        intro hji
        rw [hji, applyOps_getElem?_some hw, hnb] at hjn'
        have : setIdx v nb = m2 := by
          have := Option.some.inj hjn'
          exact this
        rw [← this] at hflagm
        exact Bool.noConfusion hflagm
      have hsrcne := hsrc jn m2 hjne (by rw [hN]; exact hjn') hflagm
      rw [← hm2e] at hmsg
      exact hsrcne (auditErrorMsg_inj hmsg)

theorem c7_witness :
    addInterfaceIndexes ⟨[⟨[⟨[], [0], ".foo"⟩], [⟨"block-interface-index", "4", 0⟩]⟩]⟩ "def.css"
        ⟨[⟨".foo", some 9, false⟩], []⟩ = Except.ok ⟨[⟨".foo", some 4, true⟩], []⟩ ∧
    lastWrite (opsOf ⟨[⟨[⟨[], [0], ".foo"⟩], [⟨"block-interface-index", "4", 0⟩]⟩]⟩) 0 =
      some (some 4) ∧
    (⟨[⟨".foo", some 4, true⟩], []⟩ : Block).styleNodes[0]? = some ⟨".foo", some 4, true⟩ ∧
    (∃ rule decl, rule ∈ [(⟨[⟨[], [0], ".foo"⟩], [⟨"block-interface-index", "4", 0⟩]⟩ : Rule)] ∧
      decl ∈ rule.decls ∧ decl.prop = "block-interface-index" ∧
      jsParseInt (stripQuotes decl.value) = some 4) ∧
    (∀ e ∈ (⟨[⟨".foo", some 4, true⟩], []⟩ : Block).errors,
      ¬(e.message = auditErrorMsg ".foo" ∧ e.loc = ErrLoc.fileOnly "def.css")) := by
  have hmain := c7_assigned ⟨[⟨[⟨[], [0], ".foo"⟩], [⟨"block-interface-index", "4", 0⟩]⟩]⟩
    "def.css" ⟨[⟨".foo", some 9, false⟩], []⟩ ⟨[⟨".foo", some 4, true⟩], []⟩ 0 (some 4)
    ⟨".foo", some 9, false⟩ rfl (by decide) rfl
  refine ⟨rfl, by decide, hmain.1, hmain.2.1, hmain.2.2 (by intro e he; cases he) ?_⟩
  intro j m hj hm hflag
  cases j with
  | zero => exact absurd rfl hj
  | succ k => simp at hm

/-- C5: after a run that completes (no fatal throw), for every source
representation `s` the number of completeness errors carrying the audit
message for `s` and the whole-file attribution (no line/column) equals the
number of style nodes in the block's full enumeration whose reset flag is
still false and whose source representation is `s`: exactly one such error
per unreset node, none for reset nodes.  The initial error list is assumed to
carry no whole-file records for this file. -/
theorem c5_audit (root : Root) (file : String) (b b' : Block) (s : String)
    (hclean : ∀ e ∈ b.errors, e.loc ≠ ErrLoc.fileOnly file)
    (h : addInterfaceIndexes root file b = Except.ok b') :
    b'.errors.countP
        (fun e => decide (e.message = auditErrorMsg s ∧ e.loc = ErrLoc.fileOnly file)) =
      b'.styleNodes.countP (fun n => decide (n.wasIndexReset = false ∧ n.src = s)) := by
  have hb' := run_ok_eq h
  have hN : b'.styleNodes = applyOps (opsOf root) b.styleNodes := by
    rw [hb', auditBlock_styleNodes]
  have herr : b'.errors = (b.errors ++ errsOf file (declsOf root) []) ++
      ((applyOps (opsOf root) b.styleNodes).filter (fun n => !n.wasIndexReset)).map
        (fun n => ⟨auditErrorMsg n.src, ErrLoc.fileOnly file⟩) := by
    rw [hb', auditBlock_eq]
  rw [herr, hN, List.countP_append, List.countP_append]
  have hz1 : b.errors.countP
      (fun e => decide (e.message = auditErrorMsg s ∧ e.loc = ErrLoc.fileOnly file)) = 0 := by
    rw [List.countP_eq_zero]
    intro e he hpe
    exact hclean e he (of_decide_eq_true hpe).2
  have hz2 : (errsOf file (declsOf root) []).countP
      (fun e => decide (e.message = auditErrorMsg s ∧ e.loc = ErrLoc.fileOnly file)) = 0 := by
    rw [List.countP_eq_zero]
    intro e he hpe
    obtain ⟨_, loc, hle⟩ := errsOf_soft file _ _ e he
    have := (of_decide_eq_true hpe).2
    rw [hle] at this
    exact ErrLoc.noConfusion this
  rw [hz1, hz2, List.countP_map, List.countP_filter]
  simp only [Nat.zero_add]
  apply List.countP_congr
  intro n _
  constructor
  · intro hb3
    simp only [Bool.and_eq_true] at hb3
    obtain ⟨hpm, hflag⟩ := hb3
    have hpm' := of_decide_eq_true hpm
    refine decide_eq_true ⟨?_, auditErrorMsg_inj hpm'.1⟩
    simpa using hflag
  · intro hq
    have hq' := of_decide_eq_true hq
    simp only [Bool.and_eq_true]
    refine ⟨decide_eq_true ⟨?_, rfl⟩, ?_⟩
    · show auditErrorMsg n.src = auditErrorMsg s
      rw [hq'.2]
    · simp [hq'.1]

theorem c5_witness :
    (∀ e ∈ ([] : List CssBlockError), e.loc ≠ ErrLoc.fileOnly "def.css") ∧
    addInterfaceIndexes ⟨[⟨[⟨[], [0], ".foo"⟩], [⟨"block-interface-index", "0", 0⟩]⟩]⟩ "def.css"
        ⟨[⟨".foo", some 9, false⟩, ⟨"[state|on]", none, false⟩], []⟩ =
      Except.ok ⟨[⟨".foo", some 0, true⟩, ⟨"[state|on]", none, false⟩],
        [⟨auditErrorMsg "[state|on]", ErrLoc.fileOnly "def.css"⟩]⟩ ∧
    ((⟨[⟨".foo", some 0, true⟩, ⟨"[state|on]", none, false⟩],
        [⟨auditErrorMsg "[state|on]", ErrLoc.fileOnly "def.css"⟩]⟩ : Block)).errors.countP
        (fun e => decide (e.message = auditErrorMsg "[state|on]" ∧
          e.loc = ErrLoc.fileOnly "def.css")) =
      ((⟨[⟨".foo", some 0, true⟩, ⟨"[state|on]", none, false⟩],
        [⟨auditErrorMsg "[state|on]", ErrLoc.fileOnly "def.css"⟩]⟩ : Block)).styleNodes.countP
        (fun n => decide (n.wasIndexReset = false ∧ n.src = "[state|on]")) :=
  ⟨(by intro e he; cases he), rfl,
    c5_audit ⟨[⟨[⟨[], [0], ".foo"⟩], [⟨"block-interface-index", "0", 0⟩]⟩]⟩ "def.css"
      ⟨[⟨".foo", some 9, false⟩, ⟨"[state|on]", none, false⟩], []⟩
      ⟨[⟨".foo", some 0, true⟩, ⟨"[state|on]", none, false⟩],
        [⟨auditErrorMsg "[state|on]", ErrLoc.fileOnly "def.css"⟩]⟩ "[state|on]"
      (by intro e he; cases he) rfl⟩

/-- C8: `addInterfaceIndexes` is deterministic across a reset: if a run on a
fresh block (all reset flags false, no prior errors) completes with result
`b'`, then re-running it on the same parsed document with `b'` freshly reset
(flags cleared, errors cleared; indexes keep their values, since nothing
un-assigns them) yields exactly `b'` again — the identical style-node-to-
index mapping and the identical error list. -/
theorem c8_rerun (root : Root) (file : String) (b b' : Block)
    (hflags : ∀ n ∈ b.styleNodes, n.wasIndexReset = false)
    (herr : b.errors = [])
    (h : addInterfaceIndexes root file b = Except.ok b') :
    addInterfaceIndexes root file (resetBlock b') = Except.ok b' := by
  have hres := addII_ok_resolved h
  have hb' := run_ok_eq h
  have hrun2 := addII_ok_of_resolved root file (resetBlock b') hres
  rw [hrun2]
  have hsn : (resetBlock b').styleNodes =
      (applyOps (opsOf root) b.styleNodes).map (fun n => { n with wasIndexReset := false }) := by
    show b'.styleNodes.map _ = _
    rw [hb', auditBlock_styleNodes]
  have hinner : Block.mk (applyOps (opsOf root) (resetBlock b').styleNodes)
        ((resetBlock b').errors ++ errsOf file (declsOf root) []) =
      Block.mk (applyOps (opsOf root) b.styleNodes)
        (b.errors ++ errsOf file (declsOf root) []) := by
    rw [hsn, applyOps_reset_idem _ _ hflags, herr]
    rfl
  rw [hinner, ← hb']

theorem c8_witness :
    (∀ n ∈ [(⟨".foo", none, false⟩ : StyleNode)], n.wasIndexReset = false) ∧
    addInterfaceIndexes ⟨[⟨[⟨[], [0], ".foo"⟩], [⟨"block-interface-index", "0", 0⟩]⟩]⟩ "def.css"
        ⟨[⟨".foo", none, false⟩], []⟩ = Except.ok ⟨[⟨".foo", some 0, true⟩], []⟩ ∧
    addInterfaceIndexes ⟨[⟨[⟨[], [0], ".foo"⟩], [⟨"block-interface-index", "0", 0⟩]⟩]⟩ "def.css"
        (resetBlock ⟨[⟨".foo", some 0, true⟩], []⟩) =
      Except.ok ⟨[⟨".foo", some 0, true⟩], []⟩ :=
  ⟨by decide, rfl,
    c8_rerun ⟨[⟨[⟨[], [0], ".foo"⟩], [⟨"block-interface-index", "0", 0⟩]⟩]⟩ "def.css"
      ⟨[⟨".foo", none, false⟩], []⟩ ⟨[⟨".foo", some 0, true⟩], []⟩
      (by decide) rfl rfl⟩
